import Mathlib

/-!
Shallow embedding of `src/lens_system_design.py`: Gaussian beam propagation
through ideal thin lenses.  Machine floats are modelled by `ℝ`; the numpy
array idioms of the source (argsort-based lens ordering, the limits matrix,
the boolean-sum interval selection, `arange` sampling) are modelled by
explicit list operations that follow the source line by line.
-/

namespace LensSystem

noncomputable section

open Classical

/-- Beam section: wavelength, waist and waist position, in the order of the
constructor `BeamSection.__init__(wavelength, waist, position)`. -/
structure BeamSection where
  lambd : ℝ
  w0 : ℝ
  z0 : ℝ

namespace BeamSection

/-- Rayleigh range `zR = pi * waist**2 / wavelength`, set by the constructor. -/
def zR (b : BeamSection) : ℝ := Real.pi * b.w0 ^ 2 / b.lambd

/-- Transverse beam size at axial coordinate `z`:
`w0 * sqrt(1 + (z - z0)**2 / zR**2)`. -/
def waist (b : BeamSection) (z : ℝ) : ℝ :=
  b.w0 * Real.sqrt (1 + (z - b.z0) ^ 2 / b.zR ^ 2)

/-- Beam divergence half-angle `lambd / (pi * w0)`. -/
def divergence (b : BeamSection) : ℝ := b.lambd / (Real.pi * b.w0)

/-- Transformation by an ideal thin lens of focal length `f` placed at `z`. -/
def transformByLens (b : BeamSection) (f z : ℝ) : BeamSection :=
  let d_in := z - b.z0
  let denom := (d_in / f - 1) ^ 2 + (b.zR / f) ^ 2
  let d_out := f * (1 + (d_in / f - 1) / denom)
  ⟨b.lambd, b.w0 / Real.sqrt denom, z + d_out⟩

/-- Parameter triple `(lambd, w0, z0)` as stored in the chain's array. -/
def parameters (b : BeamSection) : ℝ × ℝ × ℝ := (b.lambd, b.w0, b.z0)

end BeamSection

/-- Module-level helper of the source: the common denominator of the lens
transformation. -/
def denominator (d_in f zR : ℝ) : ℝ := (d_in / f - 1) ^ 2 + (zR / f) ^ 2

/-- Module-level helper of the source: waist at `z` of a beam of waist `w_0`
at `sz` with Rayleigh range `zR`. -/
def propagated_waist (w_0 z zR sz : ℝ) : ℝ :=
  w_0 * Real.sqrt (1 + ((z - sz) / zR) ^ 2)

/-- Module-level helper of the source: the Rayleigh range. -/
def rayleigh_range (waist lambd : ℝ) : ℝ := Real.pi * waist ^ 2 / lambd

/-- Insertion of a `(focal, position)` pair into a position-sorted list. -/
def insertLens (l : ℝ × ℝ) : List (ℝ × ℝ) → List (ℝ × ℝ)
  | [] => [l]
  | x :: xs => if l.2 ≤ x.2 then l :: x :: xs else x :: insertLens l xs

/-- Ordering of the lenses by ascending position, modelling the source's
`argsort`-based reordering of the focal and position arrays (on pairwise
distinct positions every comparison sort produces this same list). -/
def sortLenses : List (ℝ × ℝ) → List (ℝ × ℝ)
  | [] => []
  | x :: xs => insertLens x (sortLenses xs)

/-- numpy's `ndarray.all()` on the position array: `True` iff every entry is
nonzero, and Python then compares the boolean as the number `1` or `0`. -/
def pyAll (ps : List ℝ) : ℝ := if ∀ p ∈ ps, p ≠ 0 then 1 else 0

/-- The `beamsLimits` matrix as a list of `(lower, upper)` columns:
lower row `[-inf] ++ positions`, upper row `positions ++ [inf]`. -/
def mkLimits (ps : List ℝ) : List (EReal × EReal) :=
  List.zip ((⊥ : EReal) :: ps.map Real.toEReal)
    (ps.map Real.toEReal ++ [(⊤ : EReal)])

/-- The loop of `BeamPropagation.__init__`: the first section is the original
beam and each following section is the previous one transformed by the next
sorted lens. -/
def buildSegments (b : BeamSection) : List (ℝ × ℝ) → List BeamSection
  | [] => [b]
  | l :: rest => b :: buildSegments (b.transformByLens l.1 l.2) rest

/-- State of a constructed `BeamPropagation` object. -/
structure BeamPropagation where
  lensPositions : List ℝ
  lensFocals : List ℝ
  z0 : ℝ
  w0 : ℝ
  beamsLimits : List (EReal × EReal)
  beamParams : List BeamSection

/-- `BeamPropagation.__init__`: sorts the lenses by position, raises the
configuration exception when `z0 > lensPositions.all()` (the aggregate
boolean compared as a number, exactly as the source does), and otherwise
builds the limits matrix and the section list. -/
def mkBeamPropagation (originalBeamParams : ℝ × ℝ × ℝ) (lenses : List (ℝ × ℝ)) :
    Except String BeamPropagation :=
  let sorted := sortLenses lenses
  let ps := sorted.map Prod.snd
  let z0 := originalBeamParams.2.2
  if z0 > pyAll ps then
    .error "The position of the initial waist is not smaller than the positions of the lenses"
  else
    .ok { lensPositions := ps
          lensFocals := sorted.map Prod.fst
          z0 := z0
          w0 := originalBeamParams.2.1
          beamsLimits := mkLimits ps
          beamParams := buildSegments ⟨originalBeamParams.1, originalBeamParams.2.1, z0⟩ sorted }

/-- Whether an `Except` value is a success, modelling "no exception raised". -/
def isOkE {α : Type} : Except String α → Bool
  | .ok _ => true
  | .error _ => false

def BeamPropagation.amountElements (bp : BeamPropagation) : ℕ := bp.lensPositions.length

def BeamPropagation.amountSections (bp : BeamPropagation) : ℕ := bp.amountElements + 1

/-- Placeholder section used for out-of-range indexing (never reached on the
indices the source actually uses). -/
def junkBeam : BeamSection := ⟨0, 0, 0⟩

/-- Lower limit of column `i` of the limits matrix. -/
def limitLower (limits : List (EReal × EReal)) (i : ℕ) : EReal := (limits.getD i (⊥, ⊥)).1

/-- Upper limit of column `i` of the limits matrix. -/
def limitUpper (limits : List (EReal × EReal)) (i : ℕ) : EReal := (limits.getD i (⊥, ⊥)).2

/-- The index selection of `BeamPropagation.waist`:
`arange(amountSections)[sum(z >= beamsLimits) == 1]`, the columns where
exactly one of the two comparisons `z >= limit` holds. -/
def selectIndices (limits : List (EReal × EReal)) (z : ℝ) : List ℕ :=
  (List.range limits.length).filter fun i =>
    decide (((if limitLower limits i ≤ (z : EReal) then 1 else 0) +
             (if limitUpper limits i ≤ (z : EReal) then 1 else 0) : ℕ) = 1)

/-- `BeamPropagation.waist(z)`: the waist of the section whose column was
selected (on a well-formed chain the selection is a single index). -/
def BeamPropagation.waist (bp : BeamPropagation) (z : ℝ) : ℝ :=
  (bp.beamParams.getD ((selectIndices bp.beamsLimits z).headD 0) junkBeam).waist z

/-- The sampling constant of `plotFull`. -/
def NUMBER_OF_STEPS : ℕ := 300

/-- scipy's `arange(lo, hi, step)` in exact arithmetic: the values
`lo + k*step` for `k` below `ceil((hi - lo)/step)`. -/
def arange (lo hi step : ℝ) : List ℝ :=
  (List.range (⌈(hi - lo) / step⌉).toNat).map fun k => lo + (Nat.cast k : ℝ) * step

/-- The per-point width that `plotFull`'s section loop assigns at `z`: start
from `0` and let each section whose interval `(lower, upper]` contains `z`
overwrite the value. -/
def plotWidthAt (bp : BeamPropagation) (z : ℝ) : ℝ :=
  (List.range bp.beamsLimits.length).foldl
    (fun acc i =>
      if limitLower bp.beamsLimits i < (z : EReal) ∧ (z : EReal) ≤ limitUpper bp.beamsLimits i
      then (bp.beamParams.getD i junkBeam).waist z
      else acc) 0

/-- The `(z, width)` pairs that `plotFull` computes and plots over
`[zmin, zmax)` with step `(zmax - zmin)/NUMBER_OF_STEPS`. -/
def plotPoints (bp : BeamPropagation) (zmin zmax : ℝ) : List (ℝ × ℝ) :=
  (arange zmin zmax ((zmax - zmin) / (NUMBER_OF_STEPS : ℝ))).map fun z => (z, plotWidthAt bp z)

end

noncomputable section

open Classical

/-! Support lemmas about the embedded operations. -/

lemma insertLens_perm (l : ℝ × ℝ) (ys : List (ℝ × ℝ)) : (insertLens l ys).Perm (l :: ys) := by
  induction ys with
  | nil => rfl
  | cons y ys ihy =>
    rw [insertLens]
    by_cases hc : l.2 ≤ y.2
    · rw [if_pos hc]
    · rw [if_neg hc]
      exact (ihy.cons y).trans (List.Perm.swap l y ys)

lemma sortLenses_perm (lenses : List (ℝ × ℝ)) : (sortLenses lenses).Perm lenses := by
  induction lenses with
  | nil => rfl
  | cons x xs ih =>
    rw [sortLenses]
    exact (insertLens_perm x (sortLenses xs)).trans (ih.cons x)

lemma insertLens_sorted (l : ℝ × ℝ) (ys : List (ℝ × ℝ))
    (hs : (ys.map Prod.snd).Sorted (· ≤ ·)) :
    ((insertLens l ys).map Prod.snd).Sorted (· ≤ ·) := by
  induction ys with
  | nil => simp [insertLens]
  | cons y ys ihy =>
    rw [List.map_cons, List.sorted_cons] at hs
    rw [insertLens]
    by_cases hc : l.2 ≤ y.2
    · rw [if_pos hc]
      rw [List.map_cons, List.sorted_cons]
      refine ⟨?_, ?_⟩
      · intro b hb
        rw [List.map_cons, List.mem_cons] at hb
        rcases hb with hb | hb
        · exact hb ▸ hc
        · exact hc.trans (hs.1 b hb)
      · rw [List.map_cons, List.sorted_cons]
        exact hs
    · rw [if_neg hc]
      rw [List.map_cons, List.sorted_cons]
      refine ⟨?_, ihy hs.2⟩
      intro b hb
      rw [List.mem_map] at hb
      obtain ⟨q, hq, rfl⟩ := hb
      have hq' : q ∈ l :: ys := (insertLens_perm l ys).mem_iff.mp hq
      rcases List.mem_cons.mp hq' with rfl | hq'
      · exact (not_le.mp hc).le
      · exact hs.1 q.2 (List.mem_map.mpr ⟨q, hq', rfl⟩)

lemma sortLenses_sorted (lenses : List (ℝ × ℝ)) :
    ((sortLenses lenses).map Prod.snd).Sorted (· ≤ ·) := by
  induction lenses with
  | nil => simp [sortLenses]
  | cons x xs ih => exact insertLens_sorted x (sortLenses xs) ih

/-- On pairwise-distinct positions, the sorted positions are strictly
increasing. -/
lemma sortLenses_sorted_lt (lenses : List (ℝ × ℝ))
    (hd : (lenses.map Prod.snd).Pairwise (· ≠ ·)) :
    ((sortLenses lenses).map Prod.snd).Sorted (· < ·) := by
  have hperm : ((sortLenses lenses).map Prod.snd).Perm (lenses.map Prod.snd) :=
    (sortLenses_perm lenses).map Prod.snd
  have hne : ((sortLenses lenses).map Prod.snd).Pairwise (· ≠ ·) :=
    (hperm.pairwise_iff fun h => h.symm).mpr hd
  have hle : ((sortLenses lenses).map Prod.snd).Sorted (· ≤ ·) := sortLenses_sorted lenses
  exact (hle.and hne).imp fun h => lt_of_le_of_ne h.1 h.2

lemma buildSegments_length (b : BeamSection) (L : List (ℝ × ℝ)) :
    (buildSegments b L).length = L.length + 1 := by
  induction L generalizing b with
  | nil => rfl
  | cons l rest ih => simp [buildSegments, ih]

lemma buildSegments_head (b : BeamSection) (L : List (ℝ × ℝ)) :
    (buildSegments b L).getD 0 junkBeam = b := by
  cases L with
  | nil => rfl
  | cons l rest => rfl

lemma buildSegments_succ (b : BeamSection) (L : List (ℝ × ℝ)) :
    ∀ i < L.length,
      (buildSegments b L).getD (i + 1) junkBeam =
        ((buildSegments b L).getD i junkBeam).transformByLens
          (L.getD i (0, 0)).1 (L.getD i (0, 0)).2 := by
  induction L generalizing b with
  | nil => intro i hi; simp at hi
  | cons l rest ih =>
    intro i hi
    cases i with
    | zero =>
      show (buildSegments (b.transformByLens l.1 l.2) rest).getD 0 junkBeam = _
      rw [buildSegments_head]
      rfl
    | succ j =>
      have hj : j < rest.length := by simpa using hi
      show (buildSegments (b.transformByLens l.1 l.2) rest).getD (j + 1) junkBeam = _
      rw [ih (b.transformByLens l.1 l.2) j hj]
      rfl

lemma denominator_pos (b : BeamSection) (f z : ℝ)
    (hl : 0 < b.lambd) (hw : 0 < b.w0) (hf : f ≠ 0) :
    0 < denominator (z - b.z0) f b.zR := by
  have hzR : 0 < b.zR := by
    unfold BeamSection.zR
    positivity
  have h1 : b.zR / f ≠ 0 := div_ne_zero hzR.ne' hf
  have h2 : (b.zR / f) ^ 2 ≠ 0 := pow_ne_zero 2 h1
  have h3 : 0 < (b.zR / f) ^ 2 := (sq_nonneg _).lt_of_ne (Ne.symm h2)
  unfold denominator
  have := sq_nonneg ((z - b.z0) / f - 1)
  linarith

lemma transform_lambd (b : BeamSection) (f z : ℝ) :
    (b.transformByLens f z).lambd = b.lambd := rfl

lemma transform_w0_pos (b : BeamSection) (f z : ℝ)
    (hl : 0 < b.lambd) (hw : 0 < b.w0) (hf : f ≠ 0) :
    0 < (b.transformByLens f z).w0 := by
  have hd := denominator_pos b f z hl hw hf
  show 0 < b.w0 / Real.sqrt ((( z - b.z0) / f - 1) ^ 2 + (b.zR / f) ^ 2)
  exact div_pos hw (Real.sqrt_pos.mpr hd)

/-- Every section built by the loop keeps a positive wavelength and waist when
the initial beam has them and every focal length is nonzero. -/
lemma buildSegments_pos (b : BeamSection) (L : List (ℝ × ℝ))
    (hl : 0 < b.lambd) (hw : 0 < b.w0) (hf : ∀ l ∈ L, l.1 ≠ 0) :
    ∀ s ∈ buildSegments b L, 0 < s.lambd ∧ 0 < s.w0 := by
  induction L generalizing b with
  | nil =>
    intro s hs
    rw [buildSegments, List.mem_singleton] at hs
    exact hs ▸ ⟨hl, hw⟩
  | cons l rest ih =>
    intro s hs
    rw [buildSegments, List.mem_cons] at hs
    rcases hs with rfl | hs
    · exact ⟨hl, hw⟩
    · have hf1 : l.1 ≠ 0 := hf l (List.mem_cons_self l rest)
      have hl' : 0 < (b.transformByLens l.1 l.2).lambd := by rwa [transform_lambd]
      have hw' : 0 < (b.transformByLens l.1 l.2).w0 := transform_w0_pos b l.1 l.2 hl hw hf1
      exact ih (b.transformByLens l.1 l.2) hl' hw'
        (fun l' hl'' => hf l' (List.mem_cons_of_mem l hl'')) s hs

/-- Inversion of a successful construction: every stored field in terms of the
inputs. -/
lemma mkBeamPropagation_ok (params : ℝ × ℝ × ℝ) (lenses : List (ℝ × ℝ))
    (bp : BeamPropagation) (h : mkBeamPropagation params lenses = .ok bp) :
    bp.lensPositions = (sortLenses lenses).map Prod.snd ∧
    bp.lensFocals = (sortLenses lenses).map Prod.fst ∧
    bp.z0 = params.2.2 ∧ bp.w0 = params.2.1 ∧
    bp.beamsLimits = mkLimits ((sortLenses lenses).map Prod.snd) ∧
    bp.beamParams = buildSegments ⟨params.1, params.2.1, params.2.2⟩ (sortLenses lenses) ∧
    ¬ params.2.2 > pyAll ((sortLenses lenses).map Prod.snd) := by
  unfold mkBeamPropagation at h
  by_cases hc : params.2.2 > pyAll ((sortLenses lenses).map Prod.snd)
  · rw [if_pos hc] at h
    exact absurd h (by simp)
  · rw [if_neg hc] at h
    have := Except.ok.inj h
    subst this
    exact ⟨rfl, rfl, rfl, rfl, rfl, rfl, hc⟩

/-- Number of entries of the list satisfying the predicate. -/
def countHits (P : ℝ → Prop) : List ℝ → ℕ
  | [] => 0
  | p :: tl => (if P p then 1 else 0) + countHits P tl

lemma countHits_le_length (P : ℝ → Prop) (ps : List ℝ) : countHits P ps ≤ ps.length := by
  induction ps with
  | nil => simp [countHits]
  | cons p tl ih =>
    rw [countHits]
    by_cases hP : P p
    · rw [if_pos hP]
      simpa [Nat.add_comm] using ih
    · rw [if_neg hP]
      simp only [List.length_cons]
      omega

/-- On a strictly sorted list, a predicate closed downward under the order
holds exactly on the prefix of length countHits. -/
lemma sorted_prefix_char (P : ℝ → Prop) (hmono : ∀ a b : ℝ, a < b → P b → P a) :
    ∀ ps : List ℝ, ps.Sorted (· < ·) →
      ∀ j < ps.length, (P (ps.getD j 0) ↔ j < countHits P ps) := by
  intro ps
  induction ps with
  | nil => intro _ j hj; simp at hj
  | cons p tl ih =>
    intro hs j hj
    rw [List.sorted_cons] at hs
    rw [countHits]
    by_cases hP : P p
    · rw [if_pos hP]
      cases j with
      | zero => simpa using hP
      | succ j' =>
        have hj' : j' < tl.length := by simpa using hj
        have := ih hs.2 j' hj'
        simp only [List.getD_cons_succ]
        rw [this]
        omega
    · rw [if_neg hP]
      have htl : ∀ t ∈ tl, ¬ P t := fun t ht hPt => hP (hmono p t (hs.1 t ht) hPt)
      have hcount : countHits P tl = 0 := by
        clear ih hs hj
        induction tl with
        | nil => rfl
        | cons t tl' ih' =>
          rw [countHits, if_neg (htl t (List.mem_cons_self t tl'))]
          simpa using ih' fun t' ht' => htl t' (List.mem_cons_of_mem t ht')
      rw [hcount]
      cases j with
      | zero => simpa using hP
      | succ j' =>
        have hj' : j' < tl.length := by simpa using hj
        have hmem : tl.getD j' 0 ∈ tl := by
          rw [List.getD_eq_getElem tl 0 hj']
          exact List.getElem_mem hj'
        simpa using htl _ hmem

lemma mkLimits_length (ps : List ℝ) : (mkLimits ps).length = ps.length + 1 := by
  unfold mkLimits
  rw [List.length_zip, List.length_cons, List.length_map, List.length_append,
    List.length_map, List.length_singleton, Nat.min_self]

lemma limitLower_mkLimits (ps : List ℝ) (i : ℕ) (hi : i ≤ ps.length) :
    limitLower (mkLimits ps) i =
      if i = 0 then (⊥ : EReal) else ((ps.getD (i - 1) 0 : ℝ) : EReal) := by
  have hlen : i < (mkLimits ps).length := by rw [mkLimits_length]; omega
  unfold limitLower
  rw [List.getD_eq_getElem _ _ hlen]
  unfold mkLimits
  rw [List.getElem_zip]
  cases i with
  | zero => simp
  | succ j =>
    have hj : j < ps.length := by omega
    simp only [List.getElem_cons_succ, List.getElem_map]
    rw [if_neg (by omega)]
    rw [List.getD_eq_getElem ps 0 (by omega : j + 1 - 1 < ps.length)]
    simp only [Nat.add_sub_cancel]

lemma limitUpper_mkLimits (ps : List ℝ) (i : ℕ) (hi : i ≤ ps.length) :
    limitUpper (mkLimits ps) i =
      if i = ps.length then (⊤ : EReal) else ((ps.getD i 0 : ℝ) : EReal) := by
  have hlen : i < (mkLimits ps).length := by rw [mkLimits_length]; omega
  unfold limitUpper
  rw [List.getD_eq_getElem _ _ hlen]
  unfold mkLimits
  rw [List.getElem_zip]
  by_cases hip : i = ps.length
  · subst hip
    rw [if_pos rfl]
    rw [List.getElem_append_right (by simp)]
    simp
  · have hj : i < ps.length := by omega
    rw [if_neg hip]
    rw [List.getElem_append_left (by simpa using hj)]
    simp only [List.getElem_map]
    rw [List.getD_eq_getElem ps 0 hj]

lemma filter_range_eq_single (n c : ℕ) (hc : c < n) (p : ℕ → Bool)
    (hp : ∀ i < n, (p i = true ↔ i = c)) : (List.range n).filter p = [c] := by
  induction n with
  | zero => omega
  | succ m ih =>
    rw [List.range_succ, List.filter_append]
    by_cases hcm : c = m
    · subst hcm
      have hempty : (List.range c).filter p = [] := by
        rw [List.filter_eq_nil_iff]
        intro a ha
        rw [List.mem_range] at ha
        intro hpa
        exact absurd ((hp a (by omega)).mp hpa) (by omega)
      rw [hempty]
      simp [List.filter, (hp c (by omega)).mpr rfl]
    · have hcm' : c < m := by omega
      rw [ih hcm' fun i hi => hp i (by omega)]
      have hm : p m = false := by
        rcases Bool.eq_false_or_eq_true (p m) with h | h
        · exact absurd ((hp m (by omega)).mp h) fun he => hcm he.symm
        · exact h
      simp [List.filter, hm]

/-- Characterization of the lower-limit comparison of column i against z. -/
lemma lower_le_iff (ps : List ℝ) (hs : ps.Sorted (· < ·)) (z : ℝ) (i : ℕ)
    (hi : i ≤ ps.length) :
    (limitLower (mkLimits ps) i ≤ (z : EReal)) ↔ i ≤ countHits (fun p => p ≤ z) ps := by
  rw [limitLower_mkLimits ps i hi]
  by_cases h0 : i = 0
  · subst h0
    rw [if_pos rfl]
    exact iff_of_true bot_le (Nat.zero_le _)
  · rw [if_neg h0]
    rw [EReal.coe_le_coe_iff]
    have hj : i - 1 < ps.length := by omega
    rw [sorted_prefix_char (fun p => p ≤ z) (fun a b hab hb => (hab.le.trans hb)) ps hs
      (i - 1) hj]
    omega

/-- Characterization of the upper-limit comparison of column i against z. -/
lemma upper_le_iff (ps : List ℝ) (hs : ps.Sorted (· < ·)) (z : ℝ) (i : ℕ)
    (hi : i ≤ ps.length) :
    (limitUpper (mkLimits ps) i ≤ (z : EReal)) ↔ i < countHits (fun p => p ≤ z) ps := by
  rw [limitUpper_mkLimits ps i hi]
  by_cases hn : i = ps.length
  · rw [if_pos hn]
    refine iff_of_false (EReal.coe_lt_top z).not_le ?_
    have := countHits_le_length (fun p => p ≤ z) ps
    omega
  · rw [if_neg hn]
    rw [EReal.coe_le_coe_iff]
    exact sorted_prefix_char (fun p => p ≤ z) (fun a b hab hb => (hab.le.trans hb)) ps hs
      i (by omega)

/-- The selection of BeamPropagation.waist on a strictly sorted position list
is the single index counting the positions at most z. -/
lemma selectIndices_sorted (ps : List ℝ) (hs : ps.Sorted (· < ·)) (z : ℝ) :
    selectIndices (mkLimits ps) z = [countHits (fun p => p ≤ z) ps] := by
  have hcle : countHits (fun p => p ≤ z) ps ≤ ps.length := countHits_le_length _ _
  unfold selectIndices
  rw [mkLimits_length]
  apply filter_range_eq_single _ _ (by omega)
  intro i hi
  rw [decide_eq_true_eq]
  have hi' : i ≤ ps.length := by omega
  have hlow := lower_le_iff ps hs z i hi'
  have hupp := upper_le_iff ps hs z i hi'
  rcases Nat.lt_trichotomy i (countHits (fun p => p ≤ z) ps) with h | h | h
  · rw [if_pos (hlow.mpr h.le), if_pos (hupp.mpr h)]
    constructor
    · intro h2; omega
    · intro h2; omega
  · rw [if_pos (hlow.mpr h.le), if_neg fun hc => by have := hupp.mp hc; omega]
    constructor
    · intro _; omega
    · intro _; rfl
  · rw [if_neg fun hc => by have := hlow.mp hc; omega,
      if_neg fun hc => by have := hupp.mp hc; omega]
    constructor
    · intro h2; omega
    · intro h2; omega

/-- Membership in the plot's interval for column i (lower exclusive, upper
inclusive) holds exactly at the index counting the positions below z. -/
lemma plotInterval_char (ps : List ℝ) (hs : ps.Sorted (· < ·)) (z : ℝ) (i : ℕ)
    (hi : i ≤ ps.length) :
    (limitLower (mkLimits ps) i < (z : EReal) ∧ (z : EReal) ≤ limitUpper (mkLimits ps) i) ↔
      i = countHits (fun p => p < z) ps := by
  have hcle : countHits (fun p => p < z) ps ≤ ps.length := countHits_le_length _ _
  have hmono : ∀ a b : ℝ, a < b → b < z → a < z := fun a b hab hb => hab.trans hb
  have hlow : limitLower (mkLimits ps) i < (z : EReal) ↔ i ≤ countHits (fun p => p < z) ps := by
    rw [limitLower_mkLimits ps i hi]
    by_cases h0 : i = 0
    · subst h0
      rw [if_pos rfl]
      exact iff_of_true (EReal.bot_lt_coe z) (Nat.zero_le _)
    · rw [if_neg h0, EReal.coe_lt_coe_iff]
      rw [sorted_prefix_char (fun p => p < z) hmono ps hs (i - 1) (by omega)]
      omega
  have hupp : (z : EReal) ≤ limitUpper (mkLimits ps) i ↔
      countHits (fun p => p < z) ps ≤ i := by
    rw [limitUpper_mkLimits ps i hi]
    by_cases hn : i = ps.length
    · rw [if_pos hn]
      exact iff_of_true le_top (by omega)
    · rw [if_neg hn, EReal.coe_le_coe_iff]
      have hchar : ps.getD i 0 < z ↔ i < countHits (fun p => p < z) ps :=
        sorted_prefix_char (fun p => p < z) hmono ps hs i (lt_of_le_of_ne hi hn)
      rw [← not_lt, hchar]
      omega
  rw [hlow, hupp]
  omega

lemma getD_map_fst (L : List (ℝ × ℝ)) (i : ℕ) (hi : i < L.length) :
    (L.map Prod.fst).getD i 0 = (L.getD i (0, 0)).1 := by
  rw [List.getD_eq_getElem (L.map Prod.fst) 0 (by simpa using hi),
    List.getElem_map, List.getD_eq_getElem L (0, 0) hi]

lemma getD_map_snd (L : List (ℝ × ℝ)) (i : ℕ) (hi : i < L.length) :
    (L.map Prod.snd).getD i 0 = (L.getD i (0, 0)).2 := by
  rw [List.getD_eq_getElem (L.map Prod.snd) 0 (by simpa using hi),
    List.getElem_map, List.getD_eq_getElem L (0, 0) hi]

lemma sorted_getD_lt (ps : List ℝ) (hs : ps.Sorted (· < ·)) (j k : ℕ)
    (hjk : j < k) (hk : k < ps.length) : ps.getD j 0 < ps.getD k 0 := by
  rw [List.getD_eq_getElem _ _ (by omega : j < ps.length), List.getD_eq_getElem _ _ hk]
  exact List.pairwise_iff_getElem.mp hs j k (by omega) hk hjk

/-- A fold over the section indices whose step overwrites the accumulator at
the single matching index c and keeps it elsewhere returns the value at c. -/
lemma foldl_overwrite (n c : ℕ) (hc : c < n) (F : ℝ → ℕ → ℝ) (v : ℕ → ℝ)
    (hmatch : ∀ acc, F acc c = v c)
    (hskip : ∀ acc i, i < n → i ≠ c → F acc i = acc) (init : ℝ) :
    (List.range n).foldl F init = v c := by
  induction n generalizing init with
  | zero => omega
  | succ m ih =>
    rw [List.range_succ, List.foldl_append]
    simp only [List.foldl_cons, List.foldl_nil]
    by_cases hcm : c = m
    · subst hcm
      exact hmatch _
    · have hcm' : c < m := by omega
      rw [ih hcm' (fun acc i hi hne => hskip acc i (by omega) hne) init]
      exact hskip _ m (by omega) fun hm => hcm hm.symm

/-- On a strictly sorted list, the count of entries strictly below the i-th
entry is i. -/
lemma countHits_lt_at_pos (ps : List ℝ) (hs : ps.Sorted (· < ·)) (i : ℕ)
    (hi : i < ps.length) :
    countHits (fun p => p < ps.getD i 0) ps = i := by
  set z := ps.getD i 0 with hz
  have hchar := sorted_prefix_char (fun p => p < z) (fun a b hab hb => hab.trans hb) ps hs
  have hcle := countHits_le_length (fun p => p < z) ps
  have h1 : ¬ i < countHits (fun p => p < z) ps := fun hcon =>
    absurd ((hchar i hi).mpr hcon) (lt_irrefl z)
  by_cases h0 : i = 0
  · omega
  · have h2 : i - 1 < countHits (fun p => p < z) ps :=
      (hchar (i - 1) (by omega)).mp (sorted_getD_lt ps hs (i - 1) i (by omega) hi)
    omega

/-- On a strictly sorted list, the count of entries at most the i-th entry is
i + 1. -/
lemma countHits_le_at_pos (ps : List ℝ) (hs : ps.Sorted (· < ·)) (i : ℕ)
    (hi : i < ps.length) :
    countHits (fun p => p ≤ ps.getD i 0) ps = i + 1 := by
  set z := ps.getD i 0 with hz
  have hchar := sorted_prefix_char (fun p => p ≤ z) (fun a b hab hb => hab.le.trans hb) ps hs
  have hcle := countHits_le_length (fun p => p ≤ z) ps
  have h1 : i < countHits (fun p => p ≤ z) ps := (hchar i hi).mp le_rfl
  by_cases hi1 : i + 1 < ps.length
  · have h2 : ¬ i + 1 < countHits (fun p => p ≤ z) ps := fun hcon =>
      absurd ((hchar (i + 1) hi1).mpr hcon)
        (not_le.mpr (sorted_getD_lt ps hs i (i + 1) (by omega) hi1))
    omega
  · omega

/-- When z is none of the entries, the counts for the strict and the weak
comparison coincide. -/
lemma countHits_le_of_not_mem (ps : List ℝ) (z : ℝ) (hz : z ∉ ps) :
    countHits (fun p => p ≤ z) ps = countHits (fun p => p < z) ps := by
  induction ps with
  | nil => rfl
  | cons p tl ih =>
    have hpz : p ≠ z := fun hcon => hz (hcon ▸ List.mem_cons_self p tl)
    have htl : z ∉ tl := fun hcon => hz (List.mem_cons_of_mem p hcon)
    rw [countHits, countHits, ih htl]
    congr 1
    by_cases hple : p ≤ z
    · rw [if_pos hple, if_pos (lt_of_le_of_ne hple hpz)]
    · rw [if_neg hple, if_neg fun hcon => hple hcon.le]

lemma lens_continuity_algebra (f zR d_in D : ℝ) (hf : f ≠ 0) (hzR : zR ≠ 0)
    (hDdef : D = (d_in / f - 1) ^ 2 + (zR / f) ^ 2) (hD0 : D ≠ 0) :
    (1 + (f * (1 + (d_in / f - 1) / D)) ^ 2 * D ^ 2 / zR ^ 2) / D =
      1 + d_in ^ 2 / zR ^ 2 := by
  have h1 : (f * (1 + (d_in / f - 1) / D)) * D = f * (D + (d_in / f - 1)) := by
    field_simp
    ring
  rw [show (f * (1 + (d_in / f - 1) / D)) ^ 2 * D ^ 2 =
      ((f * (1 + (d_in / f - 1) / D)) * D) ^ 2 from by ring, h1]
  rw [hDdef]
  field_simp
  ring

lemma transform_zR (b : BeamSection) (f z : ℝ)
    (hl : 0 < b.lambd) (hw : 0 < b.w0) (hf : f ≠ 0) :
    (b.transformByLens f z).zR = b.zR / denominator (z - b.z0) f b.zR := by
  have hd := denominator_pos b f z hl hw hf
  show Real.pi * (b.w0 / Real.sqrt (denominator (z - b.z0) f b.zR)) ^ 2 / b.lambd = _
  rw [div_pow, Real.sq_sqrt hd.le]
  unfold BeamSection.zR
  field_simp
  ring

/-- The transverse size is continuous across a thin lens: at the lens plane
the transformed beam has the same width as the incoming beam (exact
arithmetic). -/
lemma waist_continuous_at_lens (b : BeamSection) (f z : ℝ)
    (hl : 0 < b.lambd) (hw : 0 < b.w0) (hf : f ≠ 0) :
    (b.transformByLens f z).waist z = b.waist z := by
  have hzR : 0 < b.zR := by
    unfold BeamSection.zR
    positivity
  have hd := denominator_pos b f z hl hw hf
  have hw' : (b.transformByLens f z).w0 =
      b.w0 / Real.sqrt (denominator (z - b.z0) f b.zR) := rfl
  have hz' : (b.transformByLens f z).z0 =
      z + f * (1 + ((z - b.z0) / f - 1) / denominator (z - b.z0) f b.zR) := rfl
  have hzR' := transform_zR b f z hl hw hf
  unfold BeamSection.waist
  rw [hw', hz', hzR']
  rw [show z - (z + f * (1 + ((z - b.z0) / f - 1) / denominator (z - b.z0) f b.zR)) =
      -(f * (1 + ((z - b.z0) / f - 1) / denominator (z - b.z0) f b.zR)) from by ring,
    neg_sq]
  rw [div_pow b.zR (denominator (z - b.z0) f b.zR) 2, div_div_eq_mul_div]
  have hE : (0:ℝ) ≤ 1 + (f * (1 + ((z - b.z0) / f - 1) / denominator (z - b.z0) f b.zR)) ^ 2 *
      denominator (z - b.z0) f b.zR ^ 2 / b.zR ^ 2 := by positivity
  rw [div_mul_eq_mul_div, mul_div_assoc, ← Real.sqrt_div hE]
  rw [lens_continuity_algebra f b.zR (z - b.z0) (denominator (z - b.z0) f b.zR) hf hzR.ne'
    rfl hd.ne']

/-- The width that plotFull assigns at z equals the chain-level waist(z):
away from the lens positions the two boundary conventions select the same
section, and at a lens position they select the two sections adjacent to the
lens, whose widths agree by continuity across the lens. -/
lemma plotWidthAt_eq_waist (lam w z0 : ℝ) (lenses : List (ℝ × ℝ))
    (hd : (lenses.map Prod.snd).Pairwise (· ≠ ·))
    (hl : 0 < lam) (hw : 0 < w) (hf : ∀ l ∈ lenses, l.1 ≠ 0)
    (bp : BeamPropagation) (h : mkBeamPropagation (lam, w, z0) lenses = .ok bp) (z : ℝ) :
    plotWidthAt bp z = bp.waist z := by
  obtain ⟨hps, hfs, hz0, hw0, hlim, hparams, hchk⟩ := mkBeamPropagation_ok _ _ _ h
  have hs : ((sortLenses lenses).map Prod.snd).Sorted (· < ·) := sortLenses_sorted_lt lenses hd
  set ps := (sortLenses lenses).map Prod.snd with hpsdef
  have hsortlen : (sortLenses lenses).length = ps.length := (List.length_map _ _).symm
  have hcltle : countHits (fun p => p < z) ps ≤ ps.length := countHits_le_length _ _
  have hclele : countHits (fun p => p ≤ z) ps ≤ ps.length := countHits_le_length _ _
  have hplot : plotWidthAt bp z =
      (bp.beamParams.getD (countHits (fun p => p < z) ps) junkBeam).waist z := by
    unfold plotWidthAt
    rw [hlim, mkLimits_length]
    refine foldl_overwrite (ps.length + 1) (countHits (fun p => p < z) ps) (by omega) _
      (fun i => (bp.beamParams.getD i junkBeam).waist z) ?_ ?_ 0
    · intro acc
      rw [if_pos ((plotInterval_char ps hs z _ (by omega)).mpr rfl)]
    · intro acc i hi hne
      rw [if_neg fun hcon => hne ((plotInterval_char ps hs z i (by omega)).mp hcon)]
  have hwaist : bp.waist z =
      (bp.beamParams.getD (countHits (fun p => p ≤ z) ps) junkBeam).waist z := by
    unfold BeamPropagation.waist
    rw [hlim, selectIndices_sorted ps hs z]
    rfl
  rw [hplot, hwaist]
  by_cases hmem : z ∈ ps
  · obtain ⟨i, hi, hzi⟩ := List.mem_iff_getElem.mp hmem
    have hgd : ps.getD i 0 = z := by rw [List.getD_eq_getElem _ _ hi, hzi]
    have h1 : countHits (fun p => p < z) ps = i := by
      rw [← hgd]
      exact countHits_lt_at_pos ps hs i hi
    have h2 : countHits (fun p => p ≤ z) ps = i + 1 := by
      rw [← hgd]
      exact countHits_le_at_pos ps hs i hi
    rw [h1, h2, hparams]
    have hi' : i < (sortLenses lenses).length := by omega
    rw [buildSegments_succ ⟨lam, w, z0⟩ (sortLenses lenses) i hi']
    have hsnd : ((sortLenses lenses).getD i (0, 0)).2 = z := by
      rw [← getD_map_snd _ i hi', ← hpsdef, hgd]
    have hmemL : (sortLenses lenses).getD i (0, 0) ∈ sortLenses lenses := by
      rw [List.getD_eq_getElem _ _ hi']
      exact List.getElem_mem hi'
    have hfnz : ((sortLenses lenses).getD i (0, 0)).1 ≠ 0 :=
      hf _ ((sortLenses_perm lenses).mem_iff.mp hmemL)
    have hsegmem : (buildSegments ⟨lam, w, z0⟩ (sortLenses lenses)).getD i junkBeam ∈
        buildSegments ⟨lam, w, z0⟩ (sortLenses lenses) := by
      have hilen : i < (buildSegments ⟨lam, w, z0⟩ (sortLenses lenses)).length := by
        rw [buildSegments_length]
        omega
      rw [List.getD_eq_getElem _ _ hilen]
      exact List.getElem_mem hilen
    obtain ⟨hbl, hbw⟩ := buildSegments_pos ⟨lam, w, z0⟩ (sortLenses lenses) hl hw
      (fun l hmem' => hf l ((sortLenses_perm lenses).mem_iff.mp hmem')) _ hsegmem
    rw [hsnd]
    exact (waist_continuous_at_lens _ _ z hbl hbw hfnz).symm
  · rw [countHits_le_of_not_mem ps z hmem]

/-- With the positive step (hi - lo)/300 the arange of plotFull has exactly
300 entries. -/
lemma arange_step_count (lo hi : ℝ) (hlt : lo < hi) :
    (⌈(hi - lo) / ((hi - lo) / (NUMBER_OF_STEPS : ℝ))⌉).toNat = NUMBER_OF_STEPS := by
  have hne : hi - lo ≠ 0 := sub_ne_zero.mpr hlt.ne'
  have hNr : ((NUMBER_OF_STEPS : ℕ) : ℝ) ≠ 0 := by
    rw [NUMBER_OF_STEPS]
    norm_num
  have hdd : (hi - lo) / ((hi - lo) / (NUMBER_OF_STEPS : ℝ)) = (NUMBER_OF_STEPS : ℝ) := by
    field_simp
  rw [hdd, Int.ceil_natCast, Int.toNat_natCast]

/-- The sample abscissas of plotPoints: the 300 values lo + k*step. -/
lemma plotPoints_fst (bp : BeamPropagation) (zmin zmax : ℝ) (hlt : zmin < zmax) :
    (plotPoints bp zmin zmax).map Prod.fst =
      (List.range NUMBER_OF_STEPS).map
        (fun k => zmin + (Nat.cast k : ℝ) * ((zmax - zmin) / (NUMBER_OF_STEPS : ℝ))) := by
  unfold plotPoints arange
  rw [arange_step_count zmin zmax hlt, List.map_map, List.map_map]
  rfl

lemma plotPoints_length (bp : BeamPropagation) (zmin zmax : ℝ) (hlt : zmin < zmax) :
    (plotPoints bp zmin zmax).length = NUMBER_OF_STEPS := by
  unfold plotPoints arange
  rw [List.length_map, List.length_map, List.length_range,
    arange_step_count zmin zmax hlt]

lemma pyAll_nonneg (ps : List ℝ) : 0 ≤ pyAll ps := by
  unfold pyAll
  split
  · norm_num
  · norm_num

/-- Construction raises exactly when the initial position exceeds the
aggregate boolean of the position array. -/
lemma isOkE_mk_iff (params : ℝ × ℝ × ℝ) (lenses : List (ℝ × ℝ)) :
    isOkE (mkBeamPropagation params lenses) = false ↔
      pyAll ((sortLenses lenses).map Prod.snd) < params.2.2 := by
  unfold mkBeamPropagation
  by_cases hc : params.2.2 > pyAll ((sortLenses lenses).map Prod.snd)
  · rw [if_pos hc]
    simpa [isOkE] using hc
  · rw [if_neg hc]
    simpa [isOkE] using hc

/-- Sorting the lenses does not change the aggregate boolean of the
positions. -/
lemma pyAll_sortLenses (lenses : List (ℝ × ℝ)) :
    pyAll ((sortLenses lenses).map Prod.snd) = pyAll (lenses.map Prod.snd) := by
  have hmem : ∀ p : ℝ, p ∈ (sortLenses lenses).map Prod.snd ↔ p ∈ lenses.map Prod.snd :=
    fun p => ((sortLenses_perm lenses).map Prod.snd).mem_iff
  unfold pyAll
  by_cases hall : ∀ p ∈ lenses.map Prod.snd, p ≠ 0
  · rw [if_pos fun p hp => hall p ((hmem p).mp hp), if_pos hall]
  · rw [if_neg fun hcon => hall fun p hp => hcon p ((hmem p).mpr hp), if_neg hall]

end

/-- A concrete beam used to instantiate the general theorems. -/
noncomputable def unitBeam : BeamSection := ⟨1, 1, 0⟩

/-- The chain built from the beam (1, 1, 0) and the single lens f = 1 at
z = 1, as the constructor stores it. -/
noncomputable def bpOne : BeamPropagation :=
  { lensPositions := [1]
    lensFocals := [1]
    z0 := 0
    w0 := 1
    beamsLimits := mkLimits [1]
    beamParams := buildSegments ⟨1, 1, 0⟩ [(1, 1)] }

lemma mk_bpOne : mkBeamPropagation (1, 1, 0) [(1, 1)] = .ok bpOne := by
  unfold mkBeamPropagation
  rw [if_neg]
  · rfl
  · show ¬ (1, 1, 0).2.2 > pyAll ((sortLenses [((1:ℝ), (1:ℝ))]).map Prod.snd)
    exact not_lt.mpr (le_trans (by norm_num) (pyAll_nonneg _))

/-- C1: for a beam with positive wavelength and waist and a lens with nonzero
focal length, transformByLens returns the beam with unchanged wavelength,
waist position lensPosition + d_out and waist w0 / sqrt(denom), where
d_out and denom are the thin-lens formulas; the receiver is unchanged
(the operation builds a new value). -/
theorem C1_transformByLens_formula (b : BeamSection) (f z : ℝ)
    (hl : 0 < b.lambd) (hw : 0 < b.w0) (hf : f ≠ 0) :
    (b.transformByLens f z).lambd = b.lambd ∧
    (b.transformByLens f z).z0 =
      z + f * (1 + ((z - b.z0) / f - 1) / denominator (z - b.z0) f b.zR) ∧
    (b.transformByLens f z).w0 = b.w0 / Real.sqrt (denominator (z - b.z0) f b.zR) :=
  ⟨rfl, rfl, rfl⟩

/-- Witness for C1 at the beam (1, 1, 0) and the lens f = 1 at z = 2. -/
theorem C1_transform_witness :
    (0 < unitBeam.lambd ∧ 0 < unitBeam.w0 ∧ (1:ℝ) ≠ 0) ∧
    ((unitBeam.transformByLens 1 2).lambd = unitBeam.lambd ∧
     (unitBeam.transformByLens 1 2).z0 =
       2 + 1 * (1 + ((2 - unitBeam.z0) / 1 - 1) / denominator (2 - unitBeam.z0) 1 unitBeam.zR) ∧
     (unitBeam.transformByLens 1 2).w0 =
       unitBeam.w0 / Real.sqrt (denominator (2 - unitBeam.z0) 1 unitBeam.zR)) :=
  ⟨⟨by norm_num [unitBeam], by norm_num [unitBeam], by norm_num⟩,
   C1_transformByLens_formula unitBeam 1 2 (by norm_num [unitBeam])
     (by norm_num [unitBeam]) (by norm_num)⟩

/-- C2: a successful construction from pairwise-distinct lens positions all
beyond the initial waist stores the lenses sorted ascending by position (a
permutation of the input), keeps the caller's beam as section 0, and builds
each following section by transforming the previous one with the next sorted
lens. -/
theorem C2_segments_recurrence (lam w z0 : ℝ) (lenses : List (ℝ × ℝ))
    (hd : (lenses.map Prod.snd).Pairwise (· ≠ ·))
    (hgt : ∀ l ∈ lenses, z0 < l.2)
    (bp : BeamPropagation) (h : mkBeamPropagation (lam, w, z0) lenses = .ok bp) :
    bp.lensPositions.Sorted (· ≤ ·) ∧
    (bp.lensFocals.zip bp.lensPositions).Perm lenses ∧
    bp.beamParams.length = lenses.length + 1 ∧
    bp.beamParams.getD 0 junkBeam = ⟨lam, w, z0⟩ ∧
    ∀ i < lenses.length,
      bp.beamParams.getD (i + 1) junkBeam =
        (bp.beamParams.getD i junkBeam).transformByLens
          (bp.lensFocals.getD i 0) (bp.lensPositions.getD i 0) := by
  obtain ⟨hps, hfs, hz0, hw0, hlim, hparams, hchk⟩ := mkBeamPropagation_ok _ _ _ h
  have hsortlen : (sortLenses lenses).length = lenses.length :=
    (sortLenses_perm lenses).length_eq
  refine ⟨?_, ?_, ?_, ?_, ?_⟩
  · rw [hps]
    exact sortLenses_sorted lenses
  · rw [hps, hfs, List.zip_map']
    have : (sortLenses lenses).map (fun a => (a.1, a.2)) = sortLenses lenses := by simp
    rw [this]
    exact sortLenses_perm lenses
  · rw [hparams, buildSegments_length, hsortlen]
  · rw [hparams, buildSegments_head]
  · intro i hi
    have hi' : i < (sortLenses lenses).length := by omega
    rw [hparams, hps, hfs, buildSegments_succ _ _ i hi',
      getD_map_fst _ i hi', getD_map_snd _ i hi']

/-- Witness for C2 at the beam (1, 1, 0) and the single lens f = 1 at
z = 1. -/
theorem C2_segments_witness :
    bpOne.lensPositions.Sorted (· ≤ ·) ∧
    (bpOne.lensFocals.zip bpOne.lensPositions).Perm [(1, 1)] ∧
    bpOne.beamParams.length = [((1:ℝ), (1:ℝ))].length + 1 ∧
    bpOne.beamParams.getD 0 junkBeam = ⟨1, 1, 0⟩ ∧
    ∀ i < [((1:ℝ), (1:ℝ))].length,
      bpOne.beamParams.getD (i + 1) junkBeam =
        (bpOne.beamParams.getD i junkBeam).transformByLens
          (bpOne.lensFocals.getD i 0) (bpOne.lensPositions.getD i 0) :=
  C2_segments_recurrence 1 1 0 [(1, 1)] (by simp) (by norm_num) bpOne mk_bpOne

/-- C3: the code accepts an initial waist position of 1.0 together with a
single lens at position 0.5, because the validation compares the position
against the aggregate boolean of the position array (here the number 1), so
no configuration error is raised at the claim's failing input. -/
theorem C3_code_accepts_downstream_waist :
    isOkE (mkBeamPropagation (1, 1, 1) [(1, 0.5)]) = true := by
  rw [← Bool.not_eq_false, isOkE_mk_iff, pyAll_sortLenses]
  rw [show [((1:ℝ), (0.5:ℝ))].map Prod.snd = [0.5] from rfl]
  rw [show pyAll [(0.5:ℝ)] = 1 from by
    unfold pyAll
    rw [if_pos]
    intro p hp
    rw [List.mem_singleton] at hp
    rw [hp]
    norm_num]
  norm_num

/-- C10: the constructor's validation reduces the position array to one
boolean, so it raises exactly when the initial position exceeds 1 (every
position nonzero) or exceeds 0 (some position zero); a waist downstream of
some lens, position 0.9 with lenses at 0.5 and 2, is accepted. -/
theorem C10_validation_reduces_to_boolean (lam w z0 : ℝ) (lenses : List (ℝ × ℝ)) :
    ((∀ l ∈ lenses, l.2 ≠ 0) →
      (isOkE (mkBeamPropagation (lam, w, z0) lenses) = false ↔ 1 < z0)) ∧
    ((¬ ∀ l ∈ lenses, l.2 ≠ 0) →
      (isOkE (mkBeamPropagation (lam, w, z0) lenses) = false ↔ 0 < z0)) ∧
    isOkE (mkBeamPropagation (1, 1, 0.9) [(1, 0.5), (1, 2)]) = true := by
  have hmap : ∀ lenses' : List (ℝ × ℝ),
      (∀ p ∈ lenses'.map Prod.snd, p ≠ 0) ↔ ∀ l ∈ lenses', l.2 ≠ 0 := by
    intro lenses'
    constructor
    · intro hp l hl
      exact hp l.2 (List.mem_map.mpr ⟨l, hl, rfl⟩)
    · intro hp p hp'
      obtain ⟨l, hl, rfl⟩ := List.mem_map.mp hp'
      exact hp l hl
  refine ⟨?_, ?_, ?_⟩
  · intro hall
    rw [isOkE_mk_iff, pyAll_sortLenses]
    unfold pyAll
    rw [if_pos ((hmap lenses).mpr hall)]
  · intro hall
    rw [isOkE_mk_iff, pyAll_sortLenses]
    unfold pyAll
    rw [if_neg fun hcon => hall ((hmap lenses).mp hcon)]
  · rw [← Bool.not_eq_false, isOkE_mk_iff, pyAll_sortLenses]
    unfold pyAll
    rw [if_pos]
    · norm_num
    · intro p hp
      rw [show [((1:ℝ), (0.5:ℝ)), (1, 2)].map Prod.snd = [0.5, 2] from rfl] at hp
      rcases List.mem_cons.mp hp with rfl | hp
      · norm_num
      · rw [List.mem_singleton] at hp
        rw [hp]
        norm_num

/-- The chain of the spec's two-lens example: beam (632.8e-9, 5e-4, 0),
lenses f = 0.05 at 0.2 and f = 0.1 at 0.5. -/
noncomputable def bpTwo : BeamPropagation :=
  { lensPositions := [0.2, 0.5]
    lensFocals := [0.05, 0.1]
    z0 := 0
    w0 := 5e-4
    beamsLimits := mkLimits [0.2, 0.5]
    beamParams := buildSegments ⟨632.8e-9, 5e-4, 0⟩ [(0.05, 0.2), (0.1, 0.5)] }

lemma sortLenses_two :
    sortLenses [((0.05:ℝ), (0.2:ℝ)), (0.1, 0.5)] = [(0.05, 0.2), (0.1, 0.5)] := by
  rw [sortLenses, sortLenses, sortLenses, insertLens, insertLens]
  rw [if_pos (by norm_num : ((0.05:ℝ), (0.2:ℝ)).2 ≤ ((0.1:ℝ), (0.5:ℝ)).2)]

lemma mk_bpTwo :
    mkBeamPropagation (632.8e-9, 5e-4, 0) [(0.05, 0.2), (0.1, 0.5)] = .ok bpTwo := by
  unfold mkBeamPropagation
  rw [sortLenses_two, if_neg]
  · rfl
  · show ¬ ((632.8e-9:ℝ), (5e-4:ℝ), (0:ℝ)).2.2 > pyAll ([((0.05:ℝ), (0.2:ℝ)), (0.1, 0.5)].map Prod.snd)
    exact not_lt.mpr (le_trans (by norm_num) (pyAll_nonneg _))

/-- C4: a successful construction from N pairwise-distinct-position lenses
stores N+1 sections and N+1 interval columns, whose bounds are
(-inf, p0], (p_i-1, p_i], ..., (p_N-1, +inf); read with the upper-inclusive
convention these intervals cover every real z exactly once. -/
theorem C4_intervals_partition (lam w z0 : ℝ) (lenses : List (ℝ × ℝ))
    (hd : (lenses.map Prod.snd).Pairwise (· ≠ ·))
    (bp : BeamPropagation) (h : mkBeamPropagation (lam, w, z0) lenses = .ok bp) :
    bp.beamParams.length = lenses.length + 1 ∧
    bp.beamsLimits.length = lenses.length + 1 ∧
    (∀ i ≤ lenses.length,
      limitLower bp.beamsLimits i =
        (if i = 0 then (⊥ : EReal) else ((bp.lensPositions.getD (i - 1) 0 : ℝ) : EReal)) ∧
      limitUpper bp.beamsLimits i =
        (if i = lenses.length then (⊤ : EReal) else ((bp.lensPositions.getD i 0 : ℝ) : EReal))) ∧
    ∀ z : ℝ, ∃! i, i ≤ lenses.length ∧
      limitLower bp.beamsLimits i < (z : EReal) ∧ (z : EReal) ≤ limitUpper bp.beamsLimits i := by
  obtain ⟨hps, hfs, hz0, hw0, hlim, hparams, hchk⟩ := mkBeamPropagation_ok _ _ _ h
  have hlen : ((sortLenses lenses).map Prod.snd).length = lenses.length := by
    rw [List.length_map, (sortLenses_perm lenses).length_eq]
  have hs : ((sortLenses lenses).map Prod.snd).Sorted (· < ·) := sortLenses_sorted_lt lenses hd
  refine ⟨?_, ?_, ?_, ?_⟩
  · rw [hparams, buildSegments_length, (sortLenses_perm lenses).length_eq]
  · rw [hlim, mkLimits_length, hlen]
  · intro i hi
    rw [hlim, hps]
    rw [limitLower_mkLimits _ i (by omega), limitUpper_mkLimits _ i (by omega), hlen]
    exact ⟨rfl, rfl⟩
  · intro z
    have hcle : countHits (fun p => p < z) ((sortLenses lenses).map Prod.snd) ≤
        ((sortLenses lenses).map Prod.snd).length := countHits_le_length _ _
    refine ⟨countHits (fun p => p < z) ((sortLenses lenses).map Prod.snd), ⟨by omega, ?_⟩, ?_⟩
    · rw [hlim]
      exact (plotInterval_char _ hs z _ (by omega)).mpr rfl
    · intro y hy
      rw [hlim] at hy
      exact (plotInterval_char _ hs z y (by omega)).mp hy.2

/-- Witness for C4 at the spec's two-lens example: three interval columns
(-inf, 0.2], (0.2, 0.5], (0.5, +inf). -/
theorem C4_intervals_witness :
    bpTwo.beamsLimits =
      [((⊥ : EReal), ((0.2:ℝ) : EReal)), (((0.2:ℝ) : EReal), ((0.5:ℝ) : EReal)),
       (((0.5:ℝ) : EReal), (⊤ : EReal))] ∧
    (bpTwo.beamParams.length = [((0.05:ℝ), (0.2:ℝ)), ((0.1:ℝ), (0.5:ℝ))].length + 1 ∧
     bpTwo.beamsLimits.length = [((0.05:ℝ), (0.2:ℝ)), ((0.1:ℝ), (0.5:ℝ))].length + 1 ∧
     (∀ i ≤ [((0.05:ℝ), (0.2:ℝ)), ((0.1:ℝ), (0.5:ℝ))].length,
       limitLower bpTwo.beamsLimits i =
         (if i = 0 then (⊥ : EReal) else ((bpTwo.lensPositions.getD (i - 1) 0 : ℝ) : EReal)) ∧
       limitUpper bpTwo.beamsLimits i =
         (if i = [((0.05:ℝ), (0.2:ℝ)), ((0.1:ℝ), (0.5:ℝ))].length then (⊤ : EReal)
          else ((bpTwo.lensPositions.getD i 0 : ℝ) : EReal))) ∧
     ∀ z : ℝ, ∃! i, i ≤ [((0.05:ℝ), (0.2:ℝ)), ((0.1:ℝ), (0.5:ℝ))].length ∧
       limitLower bpTwo.beamsLimits i < (z : EReal) ∧
       (z : EReal) ≤ limitUpper bpTwo.beamsLimits i) :=
  ⟨rfl,
   C4_intervals_partition 632.8e-9 5e-4 0 [(0.05, 0.2), (0.1, 0.5)]
     (by norm_num [List.pairwise_cons]) bpTwo mk_bpTwo⟩

/-- Counterexample to C5: at z = 1, the position of the single lens of a
concrete chain, the code's selection picks column 1 (the downstream
segment), while the interval satisfying lower < z <= upper is column 0 —
so the claimed convention and the upstream routing are both false. -/
theorem C5_boundary_counterexample :
    selectIndices bpOne.beamsLimits 1 = [1] ∧
    (limitLower bpOne.beamsLimits 0 < ((1 : ℝ) : EReal) ∧
      ((1 : ℝ) : EReal) ≤ limitUpper bpOne.beamsLimits 0) ∧
    ¬ (limitLower bpOne.beamsLimits 1 < ((1 : ℝ) : EReal) ∧
      ((1 : ℝ) : EReal) ≤ limitUpper bpOne.beamsLimits 1) := by
  refine ⟨?_, ⟨?_, ?_⟩, ?_⟩
  · have h1 : selectIndices (mkLimits [1]) 1 = [countHits (fun p => p ≤ 1) [1]] :=
      selectIndices_sorted [1] (List.sorted_singleton 1) 1
    have h2 : countHits (fun p => p ≤ (1:ℝ)) [1] = 1 := by
      norm_num [countHits]
    rw [h2] at h1
    exact h1
  · exact EReal.bot_lt_coe 1
  · exact le_refl _
  · intro hcon
    exact lt_irrefl _ hcon.1

/-- Amended C5: waist(z) selects the single column whose limits satisfy
lower <= z < upper (the count of lens positions at most z), returns that
section's transverse size, and a z exactly at a lens position is routed to
the segment after (downstream of) that lens. -/
theorem C5_selection_convention (lam w z0 : ℝ) (lenses : List (ℝ × ℝ))
    (hd : (lenses.map Prod.snd).Pairwise (· ≠ ·))
    (bp : BeamPropagation) (h : mkBeamPropagation (lam, w, z0) lenses = .ok bp) (z : ℝ) :
    selectIndices bp.beamsLimits z = [countHits (fun p => p ≤ z) bp.lensPositions] ∧
    bp.waist z =
      (bp.beamParams.getD (countHits (fun p => p ≤ z) bp.lensPositions) junkBeam).waist z ∧
    (∀ i ≤ lenses.length,
      ((limitLower bp.beamsLimits i ≤ (z : EReal) ∧ ¬ limitUpper bp.beamsLimits i ≤ (z : EReal)) ↔
        i = countHits (fun p => p ≤ z) bp.lensPositions)) ∧
    ∀ i, i < lenses.length → z = bp.lensPositions.getD i 0 →
      selectIndices bp.beamsLimits z = [i + 1] := by
  obtain ⟨hps, hfs, hz0, hw0, hlim, hparams, hchk⟩ := mkBeamPropagation_ok _ _ _ h
  have hlen : ((sortLenses lenses).map Prod.snd).length = lenses.length := by
    rw [List.length_map, (sortLenses_perm lenses).length_eq]
  have hs : ((sortLenses lenses).map Prod.snd).Sorted (· < ·) := sortLenses_sorted_lt lenses hd
  have hsel : selectIndices bp.beamsLimits z =
      [countHits (fun p => p ≤ z) bp.lensPositions] := by
    rw [hlim, hps]
    exact selectIndices_sorted _ hs z
  refine ⟨hsel, ?_, ?_, ?_⟩
  · unfold BeamPropagation.waist
    rw [hsel]
    rfl
  · intro i hi
    rw [hlim, hps]
    have hlow := lower_le_iff _ hs z i (by omega)
    have hupp := upper_le_iff _ hs z i (by omega)
    rw [hlow, hupp]
    omega
  · intro i hi hz
    rw [hsel, hps]
    have hchar : ∀ j < ((sortLenses lenses).map Prod.snd).length,
        (((sortLenses lenses).map Prod.snd).getD j 0 ≤ z ↔
          j < countHits (fun p => p ≤ z) ((sortLenses lenses).map Prod.snd)) :=
      fun j hj => sorted_prefix_char (fun p => p ≤ z) (fun a b hab hb => hab.le.trans hb)
        _ hs j hj
    have hcle : countHits (fun p => p ≤ z) ((sortLenses lenses).map Prod.snd) ≤
        ((sortLenses lenses).map Prod.snd).length := countHits_le_length _ _
    rw [hps] at hz
    have h1 : i < countHits (fun p => p ≤ z) ((sortLenses lenses).map Prod.snd) :=
      (hchar i (by omega)).mp (by rw [hz])
    have h2 : countHits (fun p => p ≤ z) ((sortLenses lenses).map Prod.snd) ≤ i + 1 := by
      by_cases hi1 : i + 1 < ((sortLenses lenses).map Prod.snd).length
      · by_contra hc2
        push_neg at hc2
        have hle := (hchar (i + 1) hi1).mpr (by omega)
        have hlt := sorted_getD_lt _ hs i (i + 1) (by omega) hi1
        rw [← hz] at hlt
        linarith
      · omega
    have : countHits (fun p => p ≤ z) ((sortLenses lenses).map Prod.snd) = i + 1 := by omega
    rw [this]

/-- Witness for the amended C5 at the single-lens chain and z = 1. -/
theorem C5_selection_witness :
    selectIndices bpOne.beamsLimits 1 =
      [countHits (fun p => p ≤ (1:ℝ)) bpOne.lensPositions] ∧
    bpOne.waist 1 =
      (bpOne.beamParams.getD (countHits (fun p => p ≤ (1:ℝ)) bpOne.lensPositions)
        junkBeam).waist 1 ∧
    (∀ i ≤ [((1:ℝ), (1:ℝ))].length,
      ((limitLower bpOne.beamsLimits i ≤ ((1:ℝ) : EReal) ∧
        ¬ limitUpper bpOne.beamsLimits i ≤ ((1:ℝ) : EReal)) ↔
        i = countHits (fun p => p ≤ (1:ℝ)) bpOne.lensPositions)) ∧
    ∀ i, i < [((1:ℝ), (1:ℝ))].length → (1:ℝ) = bpOne.lensPositions.getD i 0 →
      selectIndices bpOne.beamsLimits 1 = [i + 1] :=
  C5_selection_convention 1 1 0 [(1, 1)] (by simp) bpOne mk_bpOne 1

/-- C6: the derived Rayleigh range is pi*w0^2/lambda, the divergence is
lambda/(pi*w0), and the transverse size at any real z is
w0*sqrt(1 + ((z - z0)/zR)^2), also element-wise over a list of coordinates;
the function is total (no error condition for any real z). -/
theorem C6_derived_quantities (b : BeamSection) (hl : 0 < b.lambd) (hw : 0 < b.w0) (z : ℝ) :
    b.zR = Real.pi * b.w0 ^ 2 / b.lambd ∧
    b.divergence = b.lambd / (Real.pi * b.w0) ∧
    b.waist z = b.w0 * Real.sqrt (1 + ((z - b.z0) / b.zR) ^ 2) ∧
    ∀ zs : List ℝ,
      zs.map b.waist = zs.map fun t => b.w0 * Real.sqrt (1 + ((t - b.z0) / b.zR) ^ 2) := by
  have hpt : ∀ t : ℝ, b.waist t = b.w0 * Real.sqrt (1 + ((t - b.z0) / b.zR) ^ 2) := by
    intro t
    unfold BeamSection.waist
    rw [div_pow]
  refine ⟨rfl, rfl, hpt z, ?_⟩
  intro zs
  have : b.waist = fun t => b.w0 * Real.sqrt (1 + ((t - b.z0) / b.zR) ^ 2) := funext hpt
  rw [this]

/-- Witness for C6 at the beam (1, 1, 0) and z = 1. -/
theorem C6_derived_witness :
    (0 < unitBeam.lambd ∧ 0 < unitBeam.w0) ∧
    (unitBeam.zR = Real.pi * unitBeam.w0 ^ 2 / unitBeam.lambd ∧
     unitBeam.divergence = unitBeam.lambd / (Real.pi * unitBeam.w0) ∧
     unitBeam.waist 1 = unitBeam.w0 * Real.sqrt (1 + ((1 - unitBeam.z0) / unitBeam.zR) ^ 2) ∧
     ∀ zs : List ℝ, zs.map unitBeam.waist =
       zs.map fun t => unitBeam.w0 * Real.sqrt (1 + ((t - unitBeam.z0) / unitBeam.zR) ^ 2)) :=
  ⟨⟨by norm_num [unitBeam], by norm_num [unitBeam]⟩,
   C6_derived_quantities unitBeam (by norm_num [unitBeam]) (by norm_num [unitBeam]) 1⟩

/-- Counterexample to C7: a chain whose second lens transform has
denom = 0 (beam (1, 0, 0), lens f = 1 at 0.5 puts the intermediate waist at
-0.5 with zero Rayleigh range, and lens f = 1.5 at 1 then has d_in = f),
yet construction succeeds: no numeric-domain error and no error naming a
lens index is raised. -/
theorem C7_singular_counterexample :
    denominator (1 - ((⟨1, 0, 0⟩ : BeamSection).transformByLens 1 0.5).z0) 1.5
        ((⟨1, 0, 0⟩ : BeamSection).transformByLens 1 0.5).zR = 0 ∧
    isOkE (mkBeamPropagation (1, 0, 0) [(1, 0.5), (1.5, 1)]) = true := by
  constructor
  · norm_num [BeamSection.transformByLens, BeamSection.zR, denominator]
  · rw [← Bool.not_eq_false, isOkE_mk_iff]
    exact not_lt.mpr (le_trans (by norm_num) (pyAll_nonneg _))

/-- Amended C7: transformByLens has no zero-denominator check (it is total,
returning a state also at denom = 0), and a singular transform never fails
chain construction: the construction succeeds exactly when the
initial-position comparison passes, whatever the transforms do. -/
theorem C7_no_singular_check (params : ℝ × ℝ × ℝ) (lenses : List (ℝ × ℝ)) :
    isOkE (mkBeamPropagation params lenses) = true ↔
      params.2.2 ≤ pyAll ((sortLenses lenses).map Prod.snd) := by
  constructor
  · intro h
    by_contra hcon
    push_neg at hcon
    have := (isOkE_mk_iff params lenses).mpr hcon
    rw [h] at this
    simp at this
  · intro h
    rcases Bool.eq_false_or_eq_true (isOkE (mkBeamPropagation params lenses)) with hb | hb
    · exact hb
    · exact absurd ((isOkE_mk_iff params lenses).mp hb) (not_lt.mpr h)

/-- C8: for a beam with positive wavelength and waist, the transverse size at
any z is at least the waist, with equality exactly at the waist position. -/
theorem C8_waist_global_minimum (b : BeamSection) (hl : 0 < b.lambd) (hw : 0 < b.w0) (z : ℝ) :
    b.w0 ≤ b.waist z ∧ (b.waist z = b.w0 ↔ z = b.z0) := by
  have hzR : 0 < b.zR := by
    unfold BeamSection.zR
    positivity
  have hu : 0 ≤ (z - b.z0) ^ 2 / b.zR ^ 2 := by positivity
  have h1 : 1 ≤ Real.sqrt (1 + (z - b.z0) ^ 2 / b.zR ^ 2) := by
    have h := Real.sqrt_le_sqrt (show (1:ℝ) ≤ 1 + (z - b.z0) ^ 2 / b.zR ^ 2 by linarith)
    rwa [Real.sqrt_one] at h
  constructor
  · calc b.w0 = b.w0 * 1 := (mul_one _).symm
      _ ≤ b.w0 * Real.sqrt (1 + (z - b.z0) ^ 2 / b.zR ^ 2) :=
        mul_le_mul_of_nonneg_left h1 hw.le
      _ = b.waist z := rfl
  · unfold BeamSection.waist
    constructor
    · intro h
      have h2 : Real.sqrt (1 + (z - b.z0) ^ 2 / b.zR ^ 2) = 1 := by
        have := h.trans (mul_one b.w0).symm
        exact mul_left_cancel₀ hw.ne' this
      have h3 : 1 + (z - b.z0) ^ 2 / b.zR ^ 2 = 1 := Real.sqrt_eq_one.mp h2
      have h4 : (z - b.z0) ^ 2 / b.zR ^ 2 = 0 := by linarith
      have h5 : (z - b.z0) ^ 2 = 0 := by
        rcases div_eq_zero_iff.mp h4 with h5 | h5
        · exact h5
        · exact absurd h5 (by positivity)
      have h6 : z - b.z0 = 0 := pow_eq_zero_iff (n := 2) (by norm_num) |>.mp h5
      linarith
    · intro h
      subst h
      simp

/-- Counterexample to C9: over [0, 1] the sampling of plotFull yields 300
points whatever number of points is requested (there is no such parameter),
and the right endpoint zEnd = 1 is never sampled, so the points do not
cover [zStart, zEnd] and their number is not an arbitrary N (e.g. not 2). -/
theorem C9_fixed_sample_count :
    (plotPoints bpOne 0 1).length = 300 ∧ (plotPoints bpOne 0 1).length ≠ 2 ∧
    ∀ p ∈ plotPoints bpOne 0 1, p.1 ≠ 1 := by
  have hlen : (plotPoints bpOne 0 1).length = 300 :=
    plotPoints_length bpOne 0 1 (by norm_num)
  refine ⟨hlen, by omega, ?_⟩
  intro p hp
  unfold plotPoints arange at hp
  rw [List.mem_map] at hp
  obtain ⟨zz, hz, rfl⟩ := hp
  rw [List.mem_map] at hz
  obtain ⟨k, hk, rfl⟩ := hz
  rw [arange_step_count 0 1 (by norm_num), List.mem_range] at hk
  show (0:ℝ) + (Nat.cast k : ℝ) * ((1 - 0) / (NUMBER_OF_STEPS : ℝ)) ≠ 1
  intro hcon
  have hk300 : k < 300 := by
    rw [NUMBER_OF_STEPS] at hk
    exact hk
  have hk' : (k : ℝ) < 300 := by exact_mod_cast hk300
  have h300 : ((NUMBER_OF_STEPS : ℕ) : ℝ) = (300:ℝ) := by
    rw [NUMBER_OF_STEPS]
    norm_num
  rw [h300] at hcon
  have : (k : ℝ) = 300 := by
    field_simp at hcon
    linarith [hcon]
  linarith

/-- Amended C9: plotFull samples a fixed 300 points (there is no
numberOfPoints parameter), z_k = zStart + k*(zEnd - zStart)/300 for
k = 0..299 — evenly spaced over [zStart, zEnd), the right endpoint excluded
— strictly increasing when zStart < zEnd, and each sampled width equals the
chain-level waist at that z. -/
theorem C9_plot_sampling (lam w z0 : ℝ) (lenses : List (ℝ × ℝ))
    (hd : (lenses.map Prod.snd).Pairwise (· ≠ ·))
    (hl : 0 < lam) (hw : 0 < w) (hf : ∀ l ∈ lenses, l.1 ≠ 0)
    (bp : BeamPropagation) (h : mkBeamPropagation (lam, w, z0) lenses = .ok bp)
    (zmin zmax : ℝ) (hlt : zmin < zmax) :
    (plotPoints bp zmin zmax).length = NUMBER_OF_STEPS ∧
    (plotPoints bp zmin zmax).map Prod.fst =
      (List.range NUMBER_OF_STEPS).map
        (fun k => zmin + (Nat.cast k : ℝ) * ((zmax - zmin) / (NUMBER_OF_STEPS : ℝ))) ∧
    ((plotPoints bp zmin zmax).map Prod.fst).Pairwise (· < ·) ∧
    ∀ p ∈ plotPoints bp zmin zmax, p.2 = bp.waist p.1 := by
  have hstep : 0 < (zmax - zmin) / (NUMBER_OF_STEPS : ℝ) := by
    apply div_pos (by linarith)
    rw [NUMBER_OF_STEPS]
    norm_num
  refine ⟨plotPoints_length bp zmin zmax hlt, plotPoints_fst bp zmin zmax hlt, ?_, ?_⟩
  · rw [plotPoints_fst bp zmin zmax hlt]
    refine List.Pairwise.map _ ?_ (List.pairwise_lt_range NUMBER_OF_STEPS)
    intro a b hab
    have : (a : ℝ) < (b : ℝ) := by exact_mod_cast hab
    have := mul_lt_mul_of_pos_right this hstep
    linarith
  · intro p hp
    unfold plotPoints at hp
    rw [List.mem_map] at hp
    obtain ⟨zz, hz, rfl⟩ := hp
    exact plotWidthAt_eq_waist lam w z0 lenses hd hl hw hf bp h zz

/-- Witness for the amended C9 at the single-lens chain over [0, 1]. -/
theorem C9_plot_witness :
    (plotPoints bpOne 0 1).length = NUMBER_OF_STEPS ∧
    (plotPoints bpOne 0 1).map Prod.fst =
      (List.range NUMBER_OF_STEPS).map
        (fun k => (0:ℝ) + (Nat.cast k : ℝ) * ((1 - 0) / (NUMBER_OF_STEPS : ℝ))) ∧
    ((plotPoints bpOne 0 1).map Prod.fst).Pairwise (· < ·) ∧
    ∀ p ∈ plotPoints bpOne 0 1, p.2 = bpOne.waist p.1 :=
  C9_plot_sampling 1 1 0 [(1, 1)] (by simp) (by norm_num) (by norm_num)
    (fun l hl' => by
      rw [List.mem_singleton] at hl'
      rw [hl']
      norm_num)
    bpOne mk_bpOne 0 1 (by norm_num)

/-- Witness for C8 at the beam (1, 1, 0) and z = 0 (the waist position). -/
theorem C8_waist_minimum_witness :
    (0 < unitBeam.lambd ∧ 0 < unitBeam.w0) ∧
    (unitBeam.w0 ≤ unitBeam.waist 0 ∧ (unitBeam.waist 0 = unitBeam.w0 ↔ (0:ℝ) = unitBeam.z0)) :=
  ⟨⟨by norm_num [unitBeam], by norm_num [unitBeam]⟩,
   C8_waist_global_minimum unitBeam (by norm_num [unitBeam]) (by norm_num [unitBeam]) 0⟩

end LensSystem
